import Mathlib

/-!
Verification of the HiFiShifter pitch-editing core against its design
specification.  The Python source (`audio_processor.py`, `main_window.py`)
is shallowly embedded: numpy float arrays become `List ℚ` (with `Option ℚ`
where `NaN` is used as the unvoiced sentinel), the real-valued frequency
conversions become functions on `ℝ`, and each method is translated to a
Lean function following the source line by line.
-/

namespace HifiShifter

/-! ### Segmenter (`AudioProcessor._segment_audio`) -/

/-- Embeds `scipy.ndimage.binary_dilation(is_speech, structure=np.ones(100))`.
For the even-sized flat structuring element `np.ones(100)` scipy's dilation
makes frame `i` active iff some frame in the window `[i-49, i+50]` (clipped
to the array, border value false) is active in the input mask. -/
def binary_dilation100 (mask : List Bool) : List Bool :=
  (List.range mask.length).map fun i =>
    (List.range mask.length).any fun j =>
      (decide (i ≤ j + 49) && decide (j ≤ i + 50)) && mask.getD j false

/-- The segment-collecting loop of `_segment_audio`: iterate over the mask
with current index `i` and an optional open-run start `st`, emitting a
closed-open range each time an active run ends, and closing a still-open
run at the end of the list. -/
def find_segments_aux : List Bool → ℕ → Option ℕ → List (ℕ × ℕ)
  | [], _, none => []
  | [], i, some s => [(s, i)]
  | b :: rest, i, none =>
      if b then find_segments_aux rest (i + 1) (some i)
      else find_segments_aux rest (i + 1) none
  | b :: rest, i, some s =>
      if b then find_segments_aux rest (i + 1) (some s)
      else (s, i) :: find_segments_aux rest (i + 1) none

def find_segments (mask : List Bool) : List (ℕ × ℕ) :=
  find_segments_aux mask 0 none

/-- The validation tail of `_segment_audio`: `if not segments: segments =
[(0, len(is_speech))]` followed by
`segments = [(max(0, start), max(start, end)) for start, end in segments]`. -/
def ensure_valid_segments (segs : List (ℕ × ℕ)) (n : ℕ) : List (ℕ × ℕ) :=
  (if segs = [] then [(0, n)] else segs).map fun p => (max 0 p.1, max p.1 p.2)

/-- `_segment_audio` from the boolean activity mask
(`is_speech = energy_db > threshold_db`) onward. -/
def segment_audio_mask (is_speech : List Bool) : List (ℕ × ℕ) :=
  ensure_valid_segments (find_segments (binary_dilation100 is_speech))
    (binary_dilation100 is_speech).length

/-- The normalization step `energy_db = energy_db - np.max(energy_db)`
(the fold is `np.max` of the nonempty curve; numpy raises on an empty one),
applied to the per-frame decibel curve
(`energy_db = 20*log10(np.maximum(energy, 1e-5))`, a strictly monotone
per-frame map of the mel-energy curve, is taken as the input here). -/
def rel_db : List ℚ → List ℚ
  | [] => []
  | x :: xs =>
      (x :: xs).map fun v => v - xs.foldl (fun a b => if a < b then b else a) x

/-- `is_speech = energy_db > threshold_db` with the default `-60`. -/
def is_speech_of (energy_db : List ℚ) : List Bool :=
  (rel_db energy_db).map fun x => decide (x > -60)

/-- `AudioProcessor._segment_audio` on a per-frame decibel energy curve. -/
def segment_audio (energy_db : List ℚ) : List (ℕ × ℕ) :=
  segment_audio_mask (is_speech_of energy_db)

/-- Whether every frame of `[0, n)` is covered by some returned segment. -/
def covers_all (segs : List (ℕ × ℕ)) (n : ℕ) : Bool :=
  (List.range n).all fun i => segs.any fun p => decide (p.1 ≤ i) && decide (i < p.2)

/-- Segments listed left to right, each nonempty, with no overlaps:
every segment starts no earlier than `lo` and strictly before its end,
and no later segment reaches back before an earlier segment's end. -/
def Chained (lo : ℕ) : List (ℕ × ℕ) → Prop
  | [] => True
  | (s, e) :: rest => lo ≤ s ∧ s < e ∧ Chained e rest

theorem Chained.mono {lo lo' : ℕ} {l : List (ℕ × ℕ)} (h : lo ≤ lo')
    (hc : Chained lo' l) : Chained lo l := by
  cases l with
  | nil => trivial
  | cons p rest =>
      obtain ⟨h1, h2, h3⟩ := hc
      exact ⟨le_trans h h1, h2, h3⟩

theorem find_segments_aux_chained :
    ∀ (mask : List Bool) (i : ℕ) (st : Option ℕ),
      (∀ s, st = some s → s < i) →
      Chained (st.getD i) (find_segments_aux mask i st) := by
  intro mask
  induction mask with
  | nil =>
      intro i st hst
      cases st with
      | none => trivial
      | some s => exact ⟨le_refl s, hst s rfl, trivial⟩
  | cons b rest ih =>
      intro i st hst
      cases st with
      | none =>
          by_cases hb : b = true
          · simp only [find_segments_aux, hb, if_true]
            have := ih (i + 1) (some i) (by intro s hs; cases hs; omega)
            simpa using this
          · simp only [find_segments_aux, hb, if_false, Bool.false_eq_true]
            have := ih (i + 1) none (by intro s hs; cases hs)
            simp only [Option.getD_none] at this ⊢
            exact Chained.mono (by omega) this
      | some s =>
          by_cases hb : b = true
          · simp only [find_segments_aux, hb, if_true]
            have := ih (i + 1) (some s) (by intro s' hs'; cases hs'; exact lt_trans (hst s rfl) (by omega))
            simpa using this
          · simp only [find_segments_aux, hb, if_false, Bool.false_eq_true, Option.getD_some]
            refine ⟨le_refl s, hst s rfl, ?_⟩
            have := ih (i + 1) none (by intro s' hs'; cases hs')
            simp only [Option.getD_none] at this
            exact Chained.mono (by omega) this

theorem find_segments_aux_ub :
    ∀ (mask : List Bool) (i : ℕ) (st : Option ℕ) (p : ℕ × ℕ),
      p ∈ find_segments_aux mask i st → p.2 ≤ i + mask.length := by
  intro mask
  induction mask with
  | nil =>
      intro i st p hp
      cases st with
      | none => simp [find_segments_aux] at hp
      | some s =>
          simp only [find_segments_aux, List.mem_singleton] at hp
          subst hp; simp
  | cons b rest ih =>
      intro i st p hp
      cases st with
      | none =>
          by_cases hb : b = true
          · simp only [find_segments_aux, hb, if_true] at hp
            have := ih (i + 1) (some i) p hp
            simpa [Nat.add_comm, Nat.add_left_comm] using this
          · simp only [find_segments_aux, hb, if_false, Bool.false_eq_true] at hp
            have := ih (i + 1) none p hp
            simpa [Nat.add_comm, Nat.add_left_comm] using this
      | some s =>
          by_cases hb : b = true
          · simp only [find_segments_aux, hb, if_true] at hp
            have := ih (i + 1) (some s) p hp
            simpa [Nat.add_comm, Nat.add_left_comm] using this
          · simp only [find_segments_aux, hb, if_false, Bool.false_eq_true, List.mem_cons] at hp
            rcases hp with hp | hp
            · subst hp; simp
            · have := ih (i + 1) none p hp
              simpa [Nat.add_comm, Nat.add_left_comm] using this

/-- Weak form of `Chained` (degenerate segments allowed): still forbids
any overlap between the closed-open ranges. -/
def WChained (lo : ℕ) : List (ℕ × ℕ) → Prop
  | [] => True
  | (s, e) :: rest => lo ≤ s ∧ s ≤ e ∧ WChained e rest

theorem Chained.toW {lo : ℕ} {l : List (ℕ × ℕ)} (h : Chained lo l) : WChained lo l := by
  induction l generalizing lo with
  | nil => trivial
  | cons p rest ih =>
      obtain ⟨h1, h2, h3⟩ := h
      exact ⟨h1, le_of_lt h2, ih h3⟩

theorem ensure_map_id {lo : ℕ} {l : List (ℕ × ℕ)} (h : Chained lo l) :
    (l.map fun p => (max 0 p.1, max p.1 p.2)) = l := by
  induction l generalizing lo with
  | nil => rfl
  | cons p rest ih =>
      obtain ⟨h1, h2, h3⟩ := h
      simp only [List.map_cons, ih h3]
      simp [Nat.max_eq_right (le_of_lt h2)]

theorem binary_dilation100_length (mask : List Bool) :
    (binary_dilation100 mask).length = mask.length := by
  simp [binary_dilation100]

theorem rel_db_length (l : List ℚ) : (rel_db l).length = l.length := by
  cases l with
  | nil => rfl
  | cons x xs => simp [rel_db]

theorem getD_false_of_all_false {mask : List Bool}
    (h : ∀ b ∈ mask, b = false) (j : ℕ) : mask.getD j false = false := by
  rcases Nat.lt_or_ge j mask.length with hj | hj
  · rw [List.getD_eq_getElem mask false hj]
    exact h _ (List.getElem_mem hj)
  · exact List.getD_eq_default mask false hj

theorem binary_dilation100_all_false {mask : List Bool}
    (h : ∀ b ∈ mask, b = false) : ∀ b ∈ binary_dilation100 mask, b = false := by
  intro b hb
  simp only [binary_dilation100, List.mem_map, List.mem_range] at hb
  obtain ⟨i, _, hbi⟩ := hb
  subst hbi
  rw [List.any_eq_false]
  intro j _
  simp only [Bool.and_eq_true, decide_eq_true_eq, not_and, Bool.not_eq_true]
  intro _
  exact getD_false_of_all_false h j

theorem find_segments_aux_all_false {mask : List Bool}
    (h : ∀ b ∈ mask, b = false) : ∀ i, find_segments_aux mask i none = [] := by
  induction mask with
  | nil => intro i; rfl
  | cons b rest ih =>
      intro i
      have hb : b = false := h b (List.mem_cons_self b rest)
      subst hb
      simp only [find_segments_aux, Bool.false_eq_true, if_false]
      exact ih (fun x hx => h x (List.mem_cons_of_mem _ hx)) (i + 1)

theorem find_segments_chained (mask : List Bool) : Chained 0 (find_segments mask) := by
  have h := find_segments_aux_chained mask 0 none (by intro s hs; cases hs)
  simpa [find_segments] using h

theorem find_segments_ub (mask : List Bool) :
    ∀ p ∈ find_segments mask, p.2 ≤ mask.length := by
  intro p hp
  have := find_segments_aux_ub mask 0 none p hp
  simpa using this

theorem foldl_qmax_replicate (n : ℕ) :
    List.foldl (fun a b : ℚ => if a < b then b else a) 0 (List.replicate n (-100)) = 0 := by
  induction n with
  | zero => rfl
  | succ k ih =>
      rw [List.replicate_succ, List.foldl_cons]
      have : (if (0 : ℚ) < -100 then (-100 : ℚ) else 0) = 0 := by norm_num
      rw [this, ih]

theorem is_speech_of_pulse :
    is_speech_of ((0 : ℚ) :: List.replicate 51 (-100)) = true :: List.replicate 51 false := by
  have hrel : rel_db ((0 : ℚ) :: List.replicate 51 (-100)) =
      (0 : ℚ) :: List.replicate 51 (-100) := by
    rw [rel_db, foldl_qmax_replicate 51]
    simp
  have h1 : decide ((0 : ℚ) > -60) = true := decide_eq_true (by norm_num)
  have h2 : decide ((-100 : ℚ) > -60) = false := decide_eq_false (by norm_num)
  rw [is_speech_of, hrel, List.map_cons, List.map_replicate, h1, h2]

/-- C1, counterexample: the energy curve with one loud frame followed by 51
quiet frames (length 52).  The Segmenter returns the single dilated active
run `[(0, 50)]`, which does not cover `[0, 52)`: frames 50 and 51 lie in no
segment, so the union of the segments is not `[0, total_frames)`. -/
theorem segment_audio_gap_counterexample :
    segment_audio ((0 : ℚ) :: List.replicate 51 (-100)) = [(0, 50)] ∧
      covers_all (segment_audio ((0 : ℚ) :: List.replicate 51 (-100))) 52 = false := by
  rw [segment_audio, is_speech_of_pulse]
  constructor <;> decide

/-- C1 (amended): for every energy curve the returned segments are ordered
left to right with no overlaps and are contained in `[0, total_frames)`
(they need not cover it: silent stretches longer than the dilation reach
belong to no segment); for an activity mask with no active frame, exactly
one segment covering the whole range is returned. -/
theorem segment_audio_partition :
    (∀ energy_db : List ℚ,
        WChained 0 (segment_audio energy_db) ∧
        ∀ p ∈ segment_audio energy_db, p.2 ≤ energy_db.length) ∧
    (∀ mask : List Bool, (∀ b ∈ mask, b = false) →
        segment_audio_mask mask = [(0, mask.length)]) := by
  constructor
  · intro energy_db
    have hlen : (binary_dilation100 (is_speech_of energy_db)).length = energy_db.length := by
      rw [binary_dilation100_length]
      simp [is_speech_of, rel_db_length]
    have hchain := find_segments_chained (binary_dilation100 (is_speech_of energy_db))
    have hub := find_segments_ub (binary_dilation100 (is_speech_of energy_db))
    constructor
    · show WChained 0 (segment_audio_mask (is_speech_of energy_db))
      rw [segment_audio_mask, ensure_valid_segments]
      by_cases hf : find_segments (binary_dilation100 (is_speech_of energy_db)) = []
      · rw [if_pos hf]
        exact ⟨Nat.zero_le _, by simp, trivial⟩
      · rw [if_neg hf, ensure_map_id hchain]
        exact hchain.toW
    · intro p hp
      rw [segment_audio, segment_audio_mask, ensure_valid_segments] at hp
      by_cases hf : find_segments (binary_dilation100 (is_speech_of energy_db)) = []
      · rw [if_pos hf] at hp
        simp only [List.map_cons, List.map_nil, List.mem_singleton] at hp
        subst hp
        simp [hlen]
      · rw [if_neg hf, ensure_map_id hchain] at hp
        have := hub p hp
        simpa [hlen] using this
  · intro mask hmask
    have hdil := binary_dilation100_all_false hmask
    rw [segment_audio_mask, find_segments, find_segments_aux_all_false hdil 0,
      ensure_valid_segments]
    simp [binary_dilation100_length]

/-- Witness for the amended C1 at concrete inputs. -/
theorem segment_audio_partition_witness :
    WChained 0 (segment_audio [(0 : ℚ), -100]) ∧
      segment_audio_mask [false, false] = [(0, 2)] :=
  ⟨(segment_audio_partition.1 [(0 : ℚ), -100]).1,
   segment_audio_partition.2 [false, false] (by decide)⟩

/-! ### Dirty marking (`HifiShifterGUI.handle_draw`, lines 1192-1198) -/

/-- The dirty-marking loop of `handle_draw`: for each `(seg_start, seg_end)`
in `track.segments`, set `segment_states[i]['dirty'] = True` when
`not (max_x < seg_start or min_x >= seg_end)`; other flags keep their value. -/
def mark_dirty_segments (segments : List (ℕ × ℕ)) (states : List Bool)
    (min_x max_x : ℕ) : List Bool :=
  List.zipWith
    (fun seg d => d || !(decide (max_x < seg.1) || decide (min_x ≥ seg.2)))
    segments states

/-! ### Edit history (`push_undo` / `undo` / `redo`, `main_window.py` 438-493) -/

/-- The per-track state touched by the pitch-edit history: the edited curve,
the two bounded snapshot stacks, and the per-segment dirty flags. -/
structure EditorState where
  f0 : List ℚ
  undo_stack : List (List ℚ)
  redo_stack : List (List ℚ)
  seg_dirty : List Bool
  deriving Repr, DecidableEq

/-- `HifiShifterGUI.push_undo`: append a copy of `f0_edited` to the undo
stack, drop the oldest entry when the stack exceeds 16 snapshots, and clear
the redo stack. -/
def push_undo (st : EditorState) : EditorState :=
  { st with
    undo_stack :=
      if 16 < (st.undo_stack ++ [st.f0]).length then (st.undo_stack ++ [st.f0]).drop 1
      else st.undo_stack ++ [st.f0],
    redo_stack := [] }

/-- One complete edit stroke in `handle_draw`: the stroke start calls
`push_undo` (clearing redo), then the drag mutates `f0_edited` into
`new_f0` and marks the touched segments dirty (`new_dirty`). -/
def apply_stroke (st : EditorState) (new_f0 : List ℚ) (new_dirty : List Bool) :
    EditorState :=
  { push_undo st with f0 := new_f0, seg_dirty := new_dirty }

/-- `HifiShifterGUI.undo`.  The boolean is `true` exactly when the soft
"nothing to undo" message is reported (empty stack, no state change). -/
def undo (st : EditorState) : EditorState × Bool :=
  match st.undo_stack.getLast? with
  | none => (st, true)
  | some prev =>
      ({ f0 := prev,
         undo_stack := st.undo_stack.dropLast,
         redo_stack := st.redo_stack ++ [st.f0],
         seg_dirty := st.seg_dirty.map fun _ => true }, false)

/-- `HifiShifterGUI.redo`, symmetric to `undo`. -/
def redo (st : EditorState) : EditorState × Bool :=
  match st.redo_stack.getLast? with
  | none => (st, true)
  | some nxt =>
      ({ f0 := nxt,
         undo_stack := st.undo_stack ++ [st.f0],
         redo_stack := st.redo_stack.dropLast,
         seg_dirty := st.seg_dirty.map fun _ => true }, false)

/-! ### Project load (`HifiShifterGUI.open_project`, lines 920-928) -/

/-- The saved-pitch restoration of `open_project`:
`min_len = min(len(saved_f0), len(track.f0_edited))` followed by
`track.f0_edited[:min_len] = saved_f0[:min_len]`, applied to the freshly
extracted curve `fresh`. -/
def apply_saved_f0 (fresh saved : List ℚ) : List ℚ :=
  saved.take (min saved.length fresh.length) ++
    fresh.drop (min saved.length fresh.length)

/-- C3: during a draw stroke touching the single frame `i`, the dirty loop
of `handle_draw` sets the flag of exactly those segments whose closed-open
range contains `i` (`seg_start ≤ i < seg_end`) and leaves every other
segment's flag at its previous value. -/
theorem handle_draw_single_frame_dirty :
    ∀ (segments : List (ℕ × ℕ)) (states : List Bool) (i : ℕ),
      states.length = segments.length →
      ∀ j, j < segments.length →
        (((segments.getD j (0, 0)).1 ≤ i ∧ i < (segments.getD j (0, 0)).2) →
          (mark_dirty_segments segments states i i).getD j false = true) ∧
        (¬((segments.getD j (0, 0)).1 ≤ i ∧ i < (segments.getD j (0, 0)).2) →
          (mark_dirty_segments segments states i i).getD j false = states.getD j false) := by
  intro segments states i hlen j hj
  have hjs : j < states.length := by omega
  have hjm : j < (mark_dirty_segments segments states i i).length := by
    simp [mark_dirty_segments, hlen]
    omega
  have key : (mark_dirty_segments segments states i i).getD j false =
      (states.getD j false ||
        !(decide (i < (segments.getD j (0, 0)).1) ||
          decide (i ≥ (segments.getD j (0, 0)).2))) := by
    rw [List.getD_eq_getElem _ _ hjm, List.getD_eq_getElem _ _ hjs,
      List.getD_eq_getElem _ _ hj]
    simp [mark_dirty_segments, List.getElem_zipWith]
  constructor
  · intro hc
    rw [key, decide_eq_false (by omega : ¬ i < (segments.getD j (0, 0)).1),
      decide_eq_false (by omega : ¬ i ≥ (segments.getD j (0, 0)).2)]
    simp
  · intro hc
    rw [key]
    rcases (by omega : i < (segments.getD j (0, 0)).1 ∨ (segments.getD j (0, 0)).2 ≤ i) with h | h
    · rw [decide_eq_true (by omega : i < (segments.getD j (0, 0)).1)]
      simp
    · rw [decide_eq_true (by omega : i ≥ (segments.getD j (0, 0)).2)]
      simp

/-- Witness for C3: on segments `[(0,5), (5,9)]`, editing frame 6 marks the
second segment dirty and leaves the first untouched. -/
theorem handle_draw_single_frame_dirty_witness :
    (mark_dirty_segments [(0, 5), (5, 9)] [false, false] 6 6).getD 1 false = true ∧
      (mark_dirty_segments [(0, 5), (5, 9)] [false, false] 6 6).getD 0 false =
        [false, false].getD 0 false :=
  ⟨(handle_draw_single_frame_dirty [(0, 5), (5, 9)] [false, false] 6 (by decide) 1
      (by decide)).1 (by decide),
   (handle_draw_single_frame_dirty [(0, 5), (5, 9)] [false, false] 6 (by decide) 0
      (by decide)).2 (by decide)⟩

/-- C8: calling `undo` with an empty undo stack (and `redo` with an empty
redo stack) reports the soft "nothing to undo"/"nothing to redo" message
(boolean flag) and leaves the whole editor state — curve, both stacks and
all dirty flags — unchanged. -/
theorem undo_redo_empty_soft :
    ∀ st : EditorState,
      (st.undo_stack = [] → undo st = (st, true)) ∧
      (st.redo_stack = [] → redo st = (st, true)) := by
  intro st
  constructor
  · intro h
    simp [undo, h]
  · intro h
    simp [redo, h]

/-- Witness for C8 at a concrete editor state with empty stacks. -/
theorem undo_redo_empty_soft_witness :
    undo ⟨[1], [], [], [false]⟩ = (⟨[1], [], [], [false]⟩, true) ∧
      redo ⟨[1], [], [], [false]⟩ = (⟨[1], [], [], [false]⟩, true) :=
  ⟨(undo_redo_empty_soft ⟨[1], [], [], [false]⟩).1 rfl,
   (undo_redo_empty_soft ⟨[1], [], [], [false]⟩).2 rfl⟩

theorem cap_concat (xs : List (List ℚ)) (a : List ℚ) :
    ∃ ys, (if 16 < (xs ++ [a]).length then (xs ++ [a]).drop 1 else xs ++ [a]) =
        ys ++ [a] ∧ (ys = xs ∨ (ys = xs.drop 1 ∧ 16 < xs.length + 1)) := by
  by_cases h : 16 < (xs ++ [a]).length
  · rw [if_pos h]
    cases xs with
    | nil => simp at h
    | cons c t =>
        refine ⟨t, by simp, Or.inr ⟨rfl, ?_⟩⟩
        simpa using h
  · exact ⟨xs, if_neg h, Or.inl rfl⟩

theorem undo_concat (f p : List ℚ) (us rs : List (List ℚ)) (dd : List Bool) :
    undo ⟨f, us ++ [p], rs, dd⟩ = (⟨p, us, rs ++ [f], dd.map fun _ => true⟩, false) := by
  simp [undo, List.getLast?_concat, List.dropLast_concat]

theorem redo_concat (f nx : List ℚ) (us rs : List (List ℚ)) (dd : List Bool) :
    redo ⟨f, us, rs ++ [nx], dd⟩ = (⟨nx, us ++ [f], rs, dd.map fun _ => true⟩, false) := by
  simp [redo, List.getLast?_concat, List.dropLast_concat]

/-- C4: for any starting curve, history stacks and dirty flags, performing
edit stroke `E1` then `E2` (each stroke pushing an undo snapshot and
clearing redo), then `undo` twice, then `redo` twice restores `f0_edited`
exactly to its post-`E2` value — also across the 16-entry stack cap. -/
theorem undo_redo_symmetry :
    ∀ (f0 e1 e2 : List ℚ) (u r : List (List ℚ)) (d d1 d2 : List Bool),
      ((redo ((redo ((undo ((undo
          (apply_stroke (apply_stroke ⟨f0, u, r, d⟩ e1 d1) e2 d2)).1)).1)).1)).1).f0
        = e2 := by
  intro f0 e1 e2 u r d d1 d2
  obtain ⟨ys1, hy1, -⟩ := cap_concat u f0
  obtain ⟨ys2, hy2, hcase⟩ := cap_concat (ys1 ++ [f0]) e1
  obtain ⟨zs, hz⟩ : ∃ zs, ys2 = zs ++ [f0] := by
    rcases hcase with h | ⟨h, hlen⟩
    · exact ⟨ys1, h⟩
    · cases ys1 with
      | nil => simp at hlen
      | cons c t => exact ⟨t, by simpa using h⟩
  have hs1 : apply_stroke ⟨f0, u, r, d⟩ e1 d1 = ⟨e1, ys1 ++ [f0], [], d1⟩ := by
    simp only [apply_stroke, push_undo]
    rw [hy1]
  have hs2 : apply_stroke ⟨e1, ys1 ++ [f0], [], d1⟩ e2 d2 =
      ⟨e2, (zs ++ [f0]) ++ [e1], [], d2⟩ := by
    simp only [apply_stroke, push_undo]
    rw [hy2, hz]
  rw [hs1, hs2, undo_concat]
  simp only [List.nil_append]
  rw [undo_concat]
  have hr1 : redo ⟨f0, zs, [e2] ++ [e1], (d2.map fun _ => true).map fun _ => true⟩ =
      (⟨e1, zs ++ [f0], [e2], ((d2.map fun _ => true).map fun _ => true).map fun _ => true⟩,
        false) :=
    redo_concat f0 e1 zs [e2] ((d2.map fun _ => true).map fun _ => true)
  simp only [List.cons_append, List.nil_append] at hr1 ⊢
  rw [hr1]
  have hr2 := redo_concat e1 e2 (zs ++ [f0]) []
    (((d2.map fun _ => true).map fun _ => true).map fun _ => true)
  simp only [List.nil_append] at hr2
  rw [hr2]

/-- C9: when a project is opened with a saved pitch curve shorter than the
freshly extracted one, the saved curve overwrites only the overlapping
prefix of `f0_edited`; every frame past the saved curve's length keeps the
freshly extracted value, and the curve length is unchanged. -/
theorem open_project_short_curve :
    ∀ (fresh saved : List ℚ), saved.length < fresh.length →
      (apply_saved_f0 fresh saved).length = fresh.length ∧
      (∀ i, i < saved.length →
        (apply_saved_f0 fresh saved).getD i 0 = saved.getD i 0) ∧
      (∀ i, saved.length ≤ i → i < fresh.length →
        (apply_saved_f0 fresh saved).getD i 0 = fresh.getD i 0) := by
  intro fresh saved h
  have hm : min saved.length fresh.length = saved.length := min_eq_left (le_of_lt h)
  have he : apply_saved_f0 fresh saved = saved ++ fresh.drop saved.length := by
    rw [apply_saved_f0, hm, List.take_length]
  refine ⟨?_, ?_, ?_⟩
  · rw [he]
    simp
    omega
  · intro i hi
    rw [he]
    exact List.getD_append saved _ 0 i hi
  · intro i hi1 hi2
    rw [he, List.getD_append_right saved _ 0 i hi1]
    have hb : i - saved.length < (fresh.drop saved.length).length := by
      simp
      omega
    rw [List.getD_eq_getElem _ _ hb, List.getD_eq_getElem _ _ hi2]
    rw [List.getElem_drop]
    congr 1
    omega

/-- Witness for C9: `fresh = [1,2,3]`, `saved = [9]` gives `[9,2,3]`:
frame 0 takes the saved value, frame 1 keeps the fresh value. -/
theorem open_project_short_curve_witness :
    (apply_saved_f0 [1, 2, 3] [9]).getD 0 0 = ([9] : List ℚ).getD 0 0 ∧
      (apply_saved_f0 [1, 2, 3] [9]).getD 1 0 = ([1, 2, 3] : List ℚ).getD 1 0 :=
  ⟨(open_project_short_curve [1, 2, 3] [9] (by decide)).2.1 0 (by decide),
   (open_project_short_curve [1, 2, 3] [9] (by decide)).2.2 1 (by decide) (by decide)⟩

/-! ### Mixer (`HifiShifterGUI.mix_tracks`, lines 794-827) -/

/-- The per-track fields `mix_tracks` reads. -/
structure MixTrack where
  muted : Bool
  solo : Bool
  volume : ℚ
  start_frame : ℕ
  synthesized_audio : Option (List ℚ)
  deriving Repr, DecidableEq

/-- The participant selection of `mix_tracks`:
`active = [t for t in tracks if not t.muted]`,
`solo = [t for t in tracks if t.solo]`, and `if solo: active = solo`. -/
def mix_participants (tracks : List MixTrack) : List MixTrack :=
  if tracks.filter (fun t => t.solo) = [] then tracks.filter fun t => !t.muted
  else tracks.filter fun t => t.solo

/-- The `max_len` loop: over active tracks with a synthesized waveform,
`max_len = max(max_len, start_frame * hop_size + len(audio))`, starting
from `0`. -/
def mix_max_len (active : List MixTrack) (hop : ℕ) : ℕ :=
  active.foldl
    (fun m t =>
      match t.synthesized_audio with
      | some a => max m (t.start_frame * hop + a.length)
      | none => m)
    0

/-- `mixed_audio[start_sample:start_sample+l] += audio * track.volume`:
element-wise addition of the scaled waveform into the buffer at the offset. -/
def add_at (buf : List ℚ) (off : ℕ) (xs : List ℚ) : List ℚ :=
  buf.mapIdx fun i v => if off ≤ i ∧ i < off + xs.length then v + xs.getD (i - off) 0 else v

/-- The accumulation loop of `mix_tracks` over a zero buffer of `n` samples. -/
def mix_sum (active : List MixTrack) (hop : ℕ) (n : ℕ) : List ℚ :=
  active.foldl
    (fun buf t =>
      match t.synthesized_audio with
      | some a => add_at buf (t.start_frame * hop) (a.map fun v => v * t.volume)
      | none => buf)
    (List.replicate n 0)

/-- `HifiShifterGUI.mix_tracks`: `None` when no track participates or when
`max_len` stays `0`; otherwise the summed buffer. -/
def mix_tracks (tracks : List MixTrack) (hop : ℕ) : Option (List ℚ) :=
  if mix_participants tracks = [] then none
  else if mix_max_len (mix_participants tracks) hop = 0 then none
  else some (mix_sum (mix_participants tracks) hop (mix_max_len (mix_participants tracks) hop))

theorem mix_max_len_all_none {l : List MixTrack} (hop : ℕ)
    (h : ∀ t ∈ l, t.synthesized_audio = none) : mix_max_len l hop = 0 := by
  have gen : ∀ (l' : List MixTrack) (m : ℕ), (∀ t ∈ l', t.synthesized_audio = none) →
      l'.foldl
        (fun m t =>
          match t.synthesized_audio with
          | some a => max m (t.start_frame * hop + a.length)
          | none => m)
        m = m := by
    intro l'
    induction l' with
    | nil => intro m _; rfl
    | cons t rest ih =>
        intro m hall
        rw [List.foldl_cons, hall t (List.mem_cons_self t rest)]
        exact ih m fun x hx => hall x (List.mem_cons_of_mem _ hx)
  exact gen l 0 h

theorem add_at_length (buf : List ℚ) (off : ℕ) (xs : List ℚ) :
    (add_at buf off xs).length = buf.length := by
  simp [add_at]

theorem mix_sum_length (active : List MixTrack) (hop n : ℕ) :
    (mix_sum active hop n).length = n := by
  have gen : ∀ (l : List MixTrack) (buf : List ℚ),
      (l.foldl
        (fun buf t =>
          match t.synthesized_audio with
          | some a => add_at buf (t.start_frame * hop) (a.map fun v => v * t.volume)
          | none => buf)
        buf).length = buf.length := by
    intro l
    induction l with
    | nil => intro buf; rfl
    | cons t rest ih =>
        intro buf
        rw [List.foldl_cons]
        cases t.synthesized_audio with
        | none => exact ih buf
        | some a => rw [ih (add_at buf (t.start_frame * hop) (a.map fun v => v * t.volume)),
            add_at_length]
  rw [mix_sum, gen, List.length_replicate]

/-- C5: if any track is soloed, exactly the soloed tracks participate in
the mix, otherwise exactly the non-muted tracks; consequently for tracks
`A(mute=false, solo=false)`, `B(mute=false, solo=true)`,
`C(mute=true, solo=false)` the mix equals the mix of `B` alone. -/
theorem mixer_solo_precedence :
    (∀ tracks : List MixTrack,
      ((∃ t ∈ tracks, t.solo = true) →
        mix_participants tracks = tracks.filter fun t => t.solo) ∧
      ((∀ t ∈ tracks, t.solo = false) →
        mix_participants tracks = tracks.filter fun t => !t.muted)) ∧
    (∀ (A B C : MixTrack) (hop : ℕ),
      A.muted = false → A.solo = false → B.muted = false → B.solo = true →
      C.muted = true → C.solo = false →
      mix_tracks [A, B, C] hop = mix_tracks [B] hop) := by
  constructor
  · intro tracks
    constructor
    · intro ⟨t, ht, hsolo⟩
      rw [mix_participants, if_neg]
      intro hnil
      exact absurd hsolo (by simpa using List.filter_eq_nil_iff.mp hnil t ht)
    · intro hall
      rw [mix_participants, if_pos]
      exact List.filter_eq_nil_iff.mpr fun t ht => by simp [hall t ht]
  · intro A B C hop hAm hAs hBm hBs hCm hCs
    have h1 : mix_participants [A, B, C] = [B] := by
      rw [mix_participants, if_neg] <;> simp [List.filter, hAs, hBs, hCs]
    have h2 : mix_participants [B] = [B] := by
      rw [mix_participants, if_neg] <;> simp [List.filter, hBs]
    rw [mix_tracks, mix_tracks, h1, h2]

/-- Witness for C5 at concrete tracks: only the soloed track `B` is mixed. -/
theorem mixer_solo_precedence_witness :
    mix_tracks
        [⟨false, false, 1, 0, some [1]⟩, ⟨false, true, 1, 0, some [2]⟩,
          ⟨true, false, 1, 0, some [3]⟩] 1 =
      mix_tracks [⟨false, true, 1, 0, some [2]⟩] 1 :=
  mixer_solo_precedence.2 ⟨false, false, 1, 0, some [1]⟩ ⟨false, true, 1, 0, some [2]⟩
    ⟨true, false, 1, 0, some [3]⟩ 1 rfl rfl rfl rfl rfl rfl

/-- C10: mixing yields the distinct no-output signal `None` not only for an
empty participant set but also whenever no participating track has a
synthesized waveform; and a produced buffer is never zero-length. -/
theorem mix_tracks_no_output :
    ∀ (tracks : List MixTrack) (hop : ℕ),
      ((∀ t ∈ mix_participants tracks, t.synthesized_audio = none) →
        mix_tracks tracks hop = none) ∧
      (∀ res, mix_tracks tracks hop = some res → res ≠ []) := by
  intro tracks hop
  constructor
  · intro hall
    rw [mix_tracks]
    by_cases hp : mix_participants tracks = []
    · rw [if_pos hp]
    · rw [if_neg hp, if_pos (mix_max_len_all_none hop hall)]
  · intro res hres
    rw [mix_tracks] at hres
    by_cases hp : mix_participants tracks = []
    · rw [if_pos hp] at hres
      exact absurd hres (by simp)
    · rw [if_neg hp] at hres
      by_cases hm : mix_max_len (mix_participants tracks) hop = 0
      · rw [if_pos hm] at hres
        exact absurd hres (by simp)
      · rw [if_neg hm] at hres
        have : res = mix_sum (mix_participants tracks) hop
            (mix_max_len (mix_participants tracks) hop) := by
          exact (Option.some_inj.mp hres).symm
        subst this
        intro hnil
        have := mix_sum_length (mix_participants tracks) hop
          (mix_max_len (mix_participants tracks) hop)
        rw [hnil] at this
        exact hm this.symm

/-- Witness for C10: one unmuted track with no synthesized waveform mixes to
`None`. -/
theorem mix_tracks_no_output_witness :
    mix_tracks [⟨false, false, 1, 0, none⟩] 512 = none :=
  (mix_tracks_no_output [⟨false, false, 1, 0, none⟩] 512).1 (by decide)

/-! ### Frequency conversion (`process_audio` 153-156, `synthesize` 278-281) -/

/-- `f0_midi[mask] = 69 + 12*np.log2(f0_np[mask]/440)` with `f0_midi[~mask]
= np.nan` for `mask = f0_np > 0`; `none` is the `NaN` unvoiced sentinel. -/
noncomputable def toLogPitch (hz : ℝ) : Option ℝ :=
  if 0 < hz then some (69 + 12 * Real.logb 2 (hz / 440)) else none

/-- `f0_hz[mask] = 440*2**((f0_midi[mask]-69)/12)` with `f0_hz[~mask] = 0`
for `mask = ~np.isnan(f0_midi)`. -/
noncomputable def toHz : Option ℝ → ℝ
  | some p => 440 * (2 : ℝ) ^ ((p - 69) / 12)
  | none => 0

/-- C6: for every `hz > 0` the log-pitch round trip returns `hz` exactly
(hence within `1e-4` relative error); nonpositive input maps to the
unvoiced sentinel and the sentinel maps back to `0` Hz. -/
theorem frequency_roundtrip :
    (∀ hz : ℝ, 0 < hz →
      toHz (toLogPitch hz) = hz ∧ |toHz (toLogPitch hz) - hz| ≤ 1e-4 * hz) ∧
    (∀ hz : ℝ, hz ≤ 0 → toLogPitch hz = none) ∧
    toHz none = 0 := by
  refine ⟨?_, ?_, rfl⟩
  · intro hz h
    have hrt : toHz (toLogPitch hz) = hz := by
      rw [toLogPitch, if_pos h, toHz]
      have harg : (69 + 12 * Real.logb 2 (hz / 440) - 69) / 12 = Real.logb 2 (hz / 440) := by
        ring
      rw [harg, Real.rpow_logb (by norm_num) (by norm_num) (by positivity)]
      field_simp
    refine ⟨hrt, ?_⟩
    rw [hrt, sub_self, abs_zero]
    positivity
  · intro hz h
    rw [toLogPitch, if_neg (by linarith)]

/-- Witness for C6 at `hz = 440`. -/
theorem frequency_roundtrip_witness : toHz (toLogPitch 440) = 440 :=
  (frequency_roundtrip.1 440 (by norm_num)).1

/-! ### Padded segment synthesis (`AudioProcessor.synthesize_segment`) -/

/-- The padded synthesis window of `synthesize_segment`:
`p_start = max(0, start - 64)`, `p_end = min(mel.shape[2], end + 64)`. -/
def pad_window (total start endF : ℕ) : ℤ × ℤ :=
  (max 0 ((start : ℤ) - 64), min (total : ℤ) ((endF : ℤ) + 64))

/-- The trimming tail of `synthesize_segment` applied to the vocoder output
`audio_padded`: `trim_start = pre_pad * hop_size`,
`trim_end = len(audio_padded) - post_pad * hop_size`, and the safety check
`if trim_end <= trim_start: return audio_padded`. -/
def synthesize_segment_trim (total start endF hop : ℕ) (audio_padded : List ℚ) :
    List ℚ :=
  if (audio_padded.length : ℤ) - ((pad_window total start endF).2 - (endF : ℤ)) * hop ≤
      ((start : ℤ) - (pad_window total start endF).1) * hop then
    audio_padded
  else
    (audio_padded.take
        ((audio_padded.length : ℤ) -
          ((pad_window total start endF).2 - (endF : ℤ)) * hop).toNat).drop
      (((start : ℤ) - (pad_window total start endF).1) * hop).toNat

/-- The defensive length normalization of `synthesize_segment`
(lines 226-232): when the pitch slice's length differs from `end - start`,
pad with the `NaN` unvoiced sentinel when too short, truncate when too
long. -/
def normalize_f0_segment (f0seg : List (Option ℚ)) (expected : ℕ) :
    List (Option ℚ) :=
  if f0seg.length ≠ expected then
    if f0seg.length < expected then
      f0seg ++ List.replicate (expected - f0seg.length) none
    else f0seg.take expected
  else f0seg

/-- C2: for a segment `(start, end)` with `start < end ≤ total` and a
vocoder output of `(p_end - p_start) * hop` samples over the padded window,
the padded window is exactly the clamped `±64`-frame extension, the trimmed
result has exactly `(end - start) * hop` samples, and in the pathological
case `trim_end ≤ trim_start` the untrimmed waveform is returned verbatim. -/
theorem synthesize_segment_padding :
    (∀ (total start endF hop : ℕ) (audio : List ℚ),
      start < endF → endF ≤ total → 0 < hop →
      (audio.length : ℤ) =
        ((pad_window total start endF).2 - (pad_window total start endF).1) * hop →
      (pad_window total start endF).1 = max 0 ((start : ℤ) - 64) ∧
      (pad_window total start endF).2 = min (total : ℤ) ((endF : ℤ) + 64) ∧
      ((synthesize_segment_trim total start endF hop audio).length : ℤ) =
        ((endF : ℤ) - start) * hop) ∧
    (∀ (total start endF hop : ℕ) (audio : List ℚ),
      (audio.length : ℤ) - ((pad_window total start endF).2 - (endF : ℤ)) * hop ≤
          ((start : ℤ) - (pad_window total start endF).1) * hop →
      synthesize_segment_trim total start endF hop audio = audio) := by
  constructor
  · intro total start endF hop audio hse het hhop hlen
    refine ⟨rfl, rfl, ?_⟩
    have hp1a : (0 : ℤ) ≤ (pad_window total start endF).1 := le_max_left 0 _
    have hp1b : (pad_window total start endF).1 ≤ (start : ℤ) :=
      max_le (Int.ofNat_nonneg start) (by omega)
    have hp2a : (endF : ℤ) ≤ (pad_window total start endF).2 :=
      le_min (by exact_mod_cast het) (by omega)
    have hA : (0 : ℤ) ≤ ((start : ℤ) - (pad_window total start endF).1) * hop :=
      mul_nonneg (by omega) (Int.ofNat_nonneg hop)
    have hB : (0 : ℤ) ≤ ((pad_window total start endF).2 - (endF : ℤ)) * hop :=
      mul_nonneg (by omega) (Int.ofNat_nonneg hop)
    have hD : (0 : ℤ) < ((endF : ℤ) - start) * hop :=
      mul_pos (by omega) (by exact_mod_cast hhop)
    have hsplit : (audio.length : ℤ) =
        ((start : ℤ) - (pad_window total start endF).1) * hop +
          ((endF : ℤ) - start) * hop +
          ((pad_window total start endF).2 - (endF : ℤ)) * hop := by
      rw [hlen]; ring
    have hguard : ¬ ((audio.length : ℤ) -
        ((pad_window total start endF).2 - (endF : ℤ)) * hop ≤
        ((start : ℤ) - (pad_window total start endF).1) * hop) := by
      rw [hsplit]; intro hcon; linarith
    rw [synthesize_segment_trim, if_neg hguard]
    have hteN : ((((audio.length : ℤ) -
        ((pad_window total start endF).2 - (endF : ℤ)) * hop)).toNat : ℤ) =
        ((start : ℤ) - (pad_window total start endF).1) * hop +
          ((endF : ℤ) - start) * hop := by
      rw [Int.toNat_of_nonneg (by rw [hsplit]; linarith)]
      rw [hsplit]; ring
    have htsN : (((((start : ℤ) - (pad_window total start endF).1) * hop)).toNat : ℤ) =
        ((start : ℤ) - (pad_window total start endF).1) * hop :=
      Int.toNat_of_nonneg hA
    have hle : (((audio.length : ℤ) -
        ((pad_window total start endF).2 - (endF : ℤ)) * hop)).toNat ≤ audio.length := by
      have : ((audio.length : ℤ) -
          ((pad_window total start endF).2 - (endF : ℤ)) * hop) ≤ (audio.length : ℤ) := by
        linarith
      omega
    rw [List.length_drop, List.length_take]
    have hmin : min (((audio.length : ℤ) -
        ((pad_window total start endF).2 - (endF : ℤ)) * hop)).toNat audio.length =
        (((audio.length : ℤ) -
          ((pad_window total start endF).2 - (endF : ℤ)) * hop)).toNat :=
      min_eq_left hle
    rw [hmin]
    omega
  · intro total start endF hop audio hguard
    rw [synthesize_segment_trim, if_pos hguard]

/-- Witness for C2: the spec's example — segment `(10, 20)` with pad 64 on
a 1000-frame track clamps the window to `(0, 84)`, and trimming a
`84 * 512`-sample vocoder output leaves `10 * 512` samples. -/
theorem synthesize_segment_padding_witness :
    ((pad_window 1000 10 20).1 = 0 ∧ (pad_window 1000 10 20).2 = 84 ∧
      ((synthesize_segment_trim 1000 10 20 512 (List.replicate 43008 0)).length : ℤ) =
        ((20 : ℤ) - 10) * 512) ∧
      synthesize_segment_trim 10 0 0 1 [1] = [1] := by
  have h := synthesize_segment_padding.1 1000 10 20 512 (List.replicate 43008 0)
    (by decide) (by decide) (by decide)
    (by rw [List.length_replicate]; norm_num [pad_window])
  have h2 := synthesize_segment_padding.2 10 0 0 1 [1] (by norm_num [pad_window])
  exact ⟨⟨by decide, by decide, h.2.2⟩, h2⟩

/-- C7: the defensive normalization makes the pitch slice exactly
`end - start` frames long: too-long slices are truncated, too-short slices
are padded with the unvoiced sentinel, whose synthesis rendering is `0` Hz
(`toHz none = 0`). -/
theorem f0_slice_normalized :
    ∀ (f0seg : List (Option ℚ)) (expected : ℕ),
      (normalize_f0_segment f0seg expected).length = expected ∧
      (expected ≤ f0seg.length →
        normalize_f0_segment f0seg expected = f0seg.take expected) ∧
      (f0seg.length < expected →
        normalize_f0_segment f0seg expected =
          f0seg ++ List.replicate (expected - f0seg.length) none) ∧
      toHz none = 0 := by
  intro f0seg expected
  refine ⟨?_, ?_, ?_, rfl⟩
  · rw [normalize_f0_segment]
    by_cases h : f0seg.length = expected
    · rw [if_neg (by omega)]
      exact h
    · rw [if_pos (by omega)]
      by_cases hlt : f0seg.length < expected
      · rw [if_pos hlt]
        simp
        omega
      · rw [if_neg hlt]
        simp
        omega
  · intro h
    rw [normalize_f0_segment]
    by_cases heq : f0seg.length = expected
    · rw [if_neg (by omega), ← heq, List.take_length]
    · rw [if_pos (by omega), if_neg (by omega)]
  · intro h
    rw [normalize_f0_segment, if_pos (by omega), if_pos h]

/-- Witness for C7: a one-frame slice for a two-frame segment is padded
with one sentinel entry. -/
theorem f0_slice_normalized_witness :
    (normalize_f0_segment [some 5] 2).length = 2 ∧
      normalize_f0_segment [some 5] 2 = [some 5] ++ List.replicate 1 none :=
  ⟨(f0_slice_normalized [some 5] 2).1,
   (f0_slice_normalized [some 5] 2).2.2.1 (by decide)⟩

end HifiShifter
